import Mathlib

/-!
Shallow embedding of the path-resolution and namespace-operation layer of
`src/pintos/src/filesys/filesys.c`.

Paths are lists of characters (a C string up to its terminator).  An inode
or directory handle is the sector number of the inode it references, with
`Option` modelling null pointers.  Handle lifecycle is made observable
through an event trace: every `inode_open` / `dir_lookup` hit / root open
appends an `iopen`, every `inode_close` / `dir_close` appends an `iclose`
(a directory close also closes the inode it wraps, as `dir_close` does in
pintos), and directory-handle creation/destruction append `dopen`/`dclose`.
Collaborators that live outside `filesys.c` (free map, inode layer,
directory layer, thread context) are modelled from the spec's collaborator
contracts in §6; their definitions say so in their doc comments.  Failures
of `DirectoryAdd` and `InodeCreate` are injected through explicit fields of
the file-system state, since the spec only gives them a boolean result.
-/

abbrev Sector := Nat

/-- Root directory sector, fixed at format time (`ROOT_DIR_SECTOR`). -/
def ROOT_DIR_SECTOR : Sector := 1

/-- Maximum length of a single file-name component (`NAME_MAX` from
`directory.h`, which is outside `src/`; the value is 14 in pintos). -/
def NAME_MAX : Nat := 14

/-- Handle-lifecycle events: inode reference opened/closed, directory
handle opened/closed.  `dir_open` transfers an existing inode reference
into the directory handle, so it emits only `dopen`; `dir_close` releases
both the directory handle and its inode reference. -/
inductive Ev where
  | iopen (s : Sector)
  | iclose (s : Sector)
  | dopen (s : Sector)
  | dclose (s : Sector)
deriving DecidableEq, Repr

/-- On-disk inode contents: type flag, directory entries (meaningful for
directories; files keep an empty list), and length. -/
structure InodeData where
  isDir : Bool
  entries : List (List Char × Sector)
  size : Nat
deriving DecidableEq, Repr

/-- File-system state: the disk as an association list from sectors to
inode data, the free map as a list of free sectors, the calling thread's
working-directory sector (`thread_current()->cwd_sector`), and injected
collaborator failures: `addFails` makes `DirectoryAdd` fail on the given
(directory sector, name) pairs, `createFails` makes `InodeCreate` fail on
the given sectors. -/
structure FS where
  disk : List (Sector × InodeData)
  freeSectors : List Sector
  cwd_sector : Sector
  addFails : List (Sector × List Char)
  createFails : List Sector
deriving DecidableEq, Repr

def assocGet : List (Sector × InodeData) → Sector → Option InodeData
  | [], _ => none
  | (k, v) :: t, s => if k = s then some v else assocGet t s

def assocSet : List (Sector × InodeData) → Sector → InodeData → List (Sector × InodeData)
  | [], s, d => [(s, d)]
  | (k, v) :: t, s, d => if k = s then (s, d) :: t else (k, v) :: assocSet t s d

def entryGet : List (List Char × Sector) → List Char → Option Sector
  | [], _ => none
  | (n, x) :: t, name => if n = name then some x else entryGet t name

def diskGet (fs : FS) (s : Sector) : Option InodeData := assocGet fs.disk s

def diskSet (fs : FS) (s : Sector) (d : InodeData) : FS :=
  { fs with disk := assocSet fs.disk s d }

/-- The pure content of `dir_lookup`: the sector the named entry of the
directory handle resolves to, if any.  A null or dangling handle misses. -/
def pureLookup (fs : FS) (dirh : Option Sector) (name : List Char) : Option Sector :=
  match dirh with
  | none => none
  | some ds =>
    match diskGet fs ds with
    | none => none
    | some d => entryGet d.entries name

/-- `while (*src == '/') src++;` — skip leading separators. -/
def dropSlashes : List Char → List Char
  | [] => []
  | c :: t => if c = '/' then dropSlashes t else c :: t

/-- The copy loop of `get_next_part`: copy characters up to the next
separator or end of string into the part buffer, with `room` characters of
buffer left; `none` models the `return -1` when a character arrives and the
buffer is full.  Returns the part and the cursor position just after it
(`*srcp` is left on the separator, not past it). -/
def copyPart : List Char → Nat → Option (List Char × List Char)
  | [], _ => some ([], [])
  | c :: t, room =>
    if c = '/' then some ([], c :: t)
    else
      match room with
      | 0 => none
      | Nat.succ r =>
        match copyPart t r with
        | none => none
        | some (p, rest) => some (c :: p, rest)

/-- Result of `get_next_part`: 1 with the part and advanced cursor, 0 at
end of string, -1 for a too-long part (in which case `*srcp` is not
advanced at all, which the embedding models by returning no cursor). -/
inductive PartResult where
  | ok (part : List Char) (rest : List Char)
  | endOfPath
  | tooLong
deriving DecidableEq, Repr

/-- `get_next_part` from filesys.c: skip leading separators, return 0 if
nothing remains, else copy the component. -/
def get_next_part (src : List Char) : PartResult :=
  match dropSlashes src with
  | [] => PartResult.endOfPath
  | c :: t =>
    match copyPart (c :: t) NAME_MAX with
    | none => PartResult.tooLong
    | some (p, rest) => PartResult.ok p rest

/-- Result of `find_file`: the C out-parameters plus the `int` result
(-1 invalid, 0 not-found-as-last, 1 found-as-last) and the handle-event
trace of the call. -/
structure RRes where
  res : Int
  filename : List Char
  cwd : Option Sector
  inode : Option Sector
  evs : List Ev

/-- Events of `dir_close` (pintos `dir_close` also closes the wrapped
inode); a null handle is a no-op. -/
def dir_close_evs : Option Sector → List Ev
  | none => []
  | some s => [Ev.dclose s, Ev.iclose s]

/-- Events of `inode_close`; a null handle is a no-op. -/
def inode_close_evs : Option Sector → List Ev
  | none => []
  | some s => [Ev.iclose s]

/-- The `while (true)` walk of `find_file`.  `fuel` is an upper bound on
the number of iterations; `find_file` supplies `src.length + 1`, which is
always sufficient because each produced component consumes at least one
character.  `cwd` is `*cwd`, `ni` is `*next_inode` (which keeps its last
written value across iterations, exactly as the C out-parameter does). -/
def find_file_loop (fs : FS) : Nat → List Char → List Char → Option Sector → Option Sector → RRes
  | 0, _, filename, cwd, ni => ⟨-1, filename, cwd, ni, []⟩
  | Nat.succ fuel, src, filename, cwd, ni =>
    match get_next_part src with
    | PartResult.tooLong => ⟨-1, filename, cwd, ni, []⟩
    | PartResult.endOfPath => ⟨-1, filename, cwd, ni, []⟩
    | PartResult.ok part rest =>
      match pureLookup fs cwd part with
      | some ino =>
        if rest = [] then
          ⟨1, part, cwd, some ino, [Ev.iopen ino]⟩
        else
          let r := find_file_loop fs fuel rest part (some ino) (some ino)
          ⟨r.res, r.filename, r.cwd, r.inode,
            [Ev.iopen ino] ++ dir_close_evs cwd ++ [Ev.dopen ino] ++ r.evs⟩
      | none =>
        if rest = [] then ⟨0, part, cwd, none, []⟩
        else ⟨-1, part, cwd, none, []⟩

/-- `find_file` from filesys.c: choose the start directory (root for a
leading separator, else the thread's working directory), then walk.
Opening the start directory is `dir_open (inode_open sector)` /
`dir_open_root`, hence one `iopen` and one `dopen`. -/
def find_file (fs : FS) (src : List Char) : RRes :=
  let startH : Sector := if src.head? = some '/' then ROOT_DIR_SECTOR else fs.cwd_sector
  let r := find_file_loop fs (src.length + 1) src [] (some startH) none
  ⟨r.res, r.filename, r.cwd, r.inode, [Ev.iopen startH, Ev.dopen startH] ++ r.evs⟩

/-- Modelled from the spec: Allocation collaborator `Allocate(count) ->
location | failure` (`free_map_allocate` lives outside `src/`).  Hands out
the first free sector; fails when the free map is exhausted. -/
def free_map_allocate (fs : FS) : FS × Option Sector :=
  match fs.freeSectors with
  | [] => (fs, none)
  | s :: rest => ({ fs with freeSectors := rest }, some s)

/-- Modelled from the spec: `Release(location, count)`. -/
def free_map_release (fs : FS) (s : Sector) : FS :=
  { fs with freeSectors := s :: fs.freeSectors }

/-- Modelled from the spec: `InodeCreate(location, size, isDirectory) ->
bool` (the inode layer is outside `src/`); failure injected via
`createFails`.  On success the inode, with empty directory content, is
written to the given sector. -/
def inode_create (fs : FS) (s : Sector) (size : Nat) (isDir : Bool) : FS × Bool :=
  if s ∈ fs.createFails then (fs, false)
  else (diskSet fs s ⟨isDir, [], size⟩, true)

/-- Modelled from the spec: `DirectoryAdd(handle, name, location) -> bool`
(the directory layer is outside `src/`).  Fails on an injected failure, a
dangling handle, or a name already present; otherwise appends the entry. -/
def dir_add (fs : FS) (dirh : Option Sector) (name : List Char) (sector : Sector) : FS × Bool :=
  match dirh with
  | none => (fs, false)
  | some ds =>
    match diskGet fs ds with
    | none => (fs, false)
    | some d =>
      if (ds, name) ∈ fs.addFails then (fs, false)
      else if (entryGet d.entries name).isSome then (fs, false)
      else (diskSet fs ds { d with entries := d.entries ++ [(name, sector)] }, true)

/-- Modelled from the spec: `DirectoryRemove(handle, name) -> bool` —
removes the entry of that exact name from the directory, failing when no
such entry exists. -/
def dir_remove (fs : FS) (dirh : Option Sector) (name : List Char) : FS × Bool :=
  match dirh with
  | none => (fs, false)
  | some ds =>
    match diskGet fs ds with
    | none => (fs, false)
    | some d =>
      if (entryGet d.entries name).isSome then
        (diskSet fs ds { d with entries := d.entries.filter (fun e => !decide (e.1 = name)) }, true)
      else (fs, false)

/-- `inode_get_inumber` on a handle; only ever applied to non-null handles
in the operations below. -/
def sectorOf (h : Option Sector) : Sector := h.getD 0

/-- Modelled from the spec: `InodeIsDirectory(handle) -> bool`. -/
def inode_is_dir (fs : FS) (h : Option Sector) : Bool :=
  match h with
  | none => false
  | some s =>
    match diskGet fs s with
    | none => false
    | some d => d.isDir

/-- `filesys_create` from filesys.c.  Note two faithfully reproduced
details of the source: the allocation / inode-creation failure paths
return without `dir_close (parent_dir)`, and the final
`success &= dir_add (parent_dir, filename, inode_sector)` evaluates the
parent insertion unconditionally (`&=` does not short-circuit), even when
adding "." or ".." to a new directory already failed. -/
def filesys_create (fs : FS) (name : List Char) (initial_size : Nat) (is_dir : Bool) :
    FS × Bool × List Ev :=
  let r := find_file fs name
  if r.res ≠ 0 then
    (fs, false, r.evs ++ dir_close_evs r.cwd)
  else
    match r.cwd with
    | none => (fs, false, r.evs)
    | some _ =>
      match free_map_allocate fs with
      | (fs1, none) => (fs1, false, r.evs)
      | (fs1, some inode_sector) =>
        match inode_create fs1 inode_sector initial_size is_dir with
        | (fs2, false) => (free_map_release fs2 inode_sector, false, r.evs)
        | (fs2, true) =>
          let dirStep : FS × Bool × List Ev :=
            if is_dir then
              let a1 := dir_add fs2 (some inode_sector) ['.'] inode_sector
              let a2 :=
                if a1.2 then dir_add a1.1 (some inode_sector) ['.', '.'] (sectorOf r.cwd)
                else (a1.1, false)
              (a2.1, a1.2 && a2.2,
                [Ev.iopen inode_sector, Ev.dopen inode_sector,
                 Ev.dclose inode_sector, Ev.iclose inode_sector])
            else (fs2, true, [])
          let a3 := dir_add dirStep.1 r.cwd r.filename inode_sector
          let success := dirStep.2.1 && a3.2
          let fs4 := if success then a3.1 else free_map_release a3.1 inode_sector
          (fs4, success, r.evs ++ dirStep.2.2 ++ dir_close_evs r.cwd)

/-- Result of `filesys_open`: a directory handle, a file handle (the file
handle keeps ownership of the inode reference), or null. -/
inductive OpenResult where
  | dirH (s : Sector)
  | fileH (s : Sector)
  | absent
deriving DecidableEq, Repr

/-- `filesys_open` from filesys.c.  Returns inside the `res == 1` branch
(so the trailing `inode_close` does not run there); `dir_open` on the
found inode emits a `dopen`, `file_open` wraps the inode reference without
further events. -/
def filesys_open (fs : FS) (name : List Char) : OpenResult × List Ev :=
  let r := find_file fs name
  let evs := r.evs ++ dir_close_evs r.cwd
  if r.res = 1 then
    if inode_is_dir fs r.inode then
      (OpenResult.dirH (sectorOf r.inode), evs ++ [Ev.dopen (sectorOf r.inode)])
    else
      (OpenResult.fileH (sectorOf r.inode), evs)
  else
    (OpenResult.absent, evs ++ inode_close_evs r.inode)

/-- `filesys_remove` from filesys.c.  Faithfully passes the whole path
`name` — not the parsed final component `filename` — to `dir_remove`, and
never closes the resolved inode handle. -/
def filesys_remove (fs : FS) (name : List Char) : FS × Bool × List Ev :=
  let r := find_file fs name
  let step : FS × Bool :=
    if r.res = 1 ∧ sectorOf r.inode ≠ fs.cwd_sector then
      dir_remove fs r.cwd name
    else (fs, false)
  (step.1, step.2, r.evs ++ dir_close_evs r.cwd)

/-- `filesys_change_dir` from filesys.c. -/
def filesys_change_dir (fs : FS) (path : List Char) : FS × Bool × List Ev :=
  let r := find_file fs path
  let evs := r.evs ++ dir_close_evs r.cwd
  let step : FS × Bool :=
    if r.res = 1 ∧ inode_is_dir fs r.inode then
      ({ fs with cwd_sector := sectorOf r.inode }, true)
    else (fs, false)
  (step.1, step.2, evs ++ inode_close_evs r.inode)

/-- Sectors of the inode-reference opens in a trace. -/
def iopens (evs : List Ev) : List Sector :=
  evs.filterMap (fun e => match e with | Ev.iopen s => some s | _ => none)

/-- Sectors of the inode-reference closes in a trace. -/
def icloses (evs : List Ev) : List Sector :=
  evs.filterMap (fun e => match e with | Ev.iclose s => some s | _ => none)

/-- Sectors of the directory-handle opens in a trace. -/
def dopens (evs : List Ev) : List Sector :=
  evs.filterMap (fun e => match e with | Ev.dopen s => some s | _ => none)

/-- Sectors of the directory-handle closes in a trace. -/
def dcloses (evs : List Ev) : List Sector :=
  evs.filterMap (fun e => match e with | Ev.dclose s => some s | _ => none)

/-- Starting from `n` live directory handles, the trace keeps the live
directory-handle count between 0 and 1 at every step (each close has a
live handle to close, and at most one is ever live). -/
def dirDisciplined : Int → List Ev → Bool
  | _, [] => true
  | n, Ev.dopen _ :: t => decide (n + 1 ≤ 1) && dirDisciplined (n + 1) t
  | n, Ev.dclose _ :: t => decide (1 ≤ n) && dirDisciplined (n - 1) t
  | n, Ev.iopen _ :: t => dirDisciplined n t
  | n, Ev.iclose _ :: t => dirDisciplined n t

/-- A file system whose root (sector 1, also the working directory)
contains one empty subdirectory "a" at sector 2. -/
def fsA : FS := ⟨[(1, ⟨true, [(['a'], 2)], 0⟩), (2, ⟨true, [], 0⟩)], [5], 1, [], []⟩

/-- A file system with an empty root (sector 1, the working directory),
one free sector 3, and an injected `DirectoryAdd` failure for the "."
entry of a directory created at sector 3. -/
def fsC1 : FS := ⟨[(1, ⟨true, [], 0⟩)], [3], 1, [(3, ['.'])], []⟩

/-- A file system with an empty root (sector 1, the working directory) and
one free sector 3, with no injected failures. -/
def fsW : FS := ⟨[(1, ⟨true, [], 0⟩)], [3], 1, [], []⟩

/-- Invariant of the resolver walk: the directory handle is always
non-null, the result is one of the three outcomes, a 0 result carries no
inode and its final component misses in the carried parent, and a 1 result
carries the inode that the final component resolves to in the carried
parent. -/
def loopInv (fs : FS) (r : RRes) : Prop :=
  r.cwd.isSome = true
  ∧ (r.res = -1 ∨ r.res = 0 ∨ r.res = 1)
  ∧ (r.res = 0 → r.inode = none ∧ pureLookup fs r.cwd r.filename = none)
  ∧ (r.res = 1 → ∃ s, r.inode = some s ∧ pureLookup fs r.cwd r.filename = some s)

/-- The later state resolves every hit of the earlier state to the same
sector (the namespace only grew). -/
def hitsMono (fs fs' : FS) : Prop :=
  ∀ dh n s, pureLookup fs dh n = some s → pureLookup fs' dh n = some s

def isSlash (c : Char) : Bool := decide (c = '/')

def nonSlash (c : Char) : Bool := decide (¬ c = '/')

/-- The specification-side notion of the components of a path: the
ordered, separator-delimited, non-empty name segments, written with the
standard list combinators rather than the parser. -/
def componentsAux : Nat → List Char → List (List Char)
  | 0, _ => []
  | Nat.succ n, s =>
    match s.dropWhile isSlash with
    | [] => []
    | c :: t => (c :: t).takeWhile nonSlash :: componentsAux n ((c :: t).dropWhile nonSlash)

def componentsOf (s : List Char) : List (List Char) := componentsAux (s.length + 1) s

/-- Repeated calls of the parser from a cursor: the sequence of produced
components, `none` when a too-long component stops parsing. -/
def parseAll : Nat → List Char → Option (List (List Char))
  | 0, _ => none
  | Nat.succ n, src =>
    match get_next_part src with
    | PartResult.endOfPath => some []
    | PartResult.tooLong => none
    | PartResult.ok part rest => (parseAll n rest).map (fun l => part :: l)

theorem dropSlashes_length_le (s : List Char) : (dropSlashes s).length ≤ s.length := by
  induction s with
  | nil => simp [dropSlashes]
  | cons c t ih =>
    simp only [dropSlashes]
    split
    · exact Nat.le_succ_of_le ih
    · simp

theorem dropSlashes_head_ne (s : List Char) (c : Char) (t : List Char)
    (h : dropSlashes s = c :: t) : ¬ c = '/' := by
  induction s with
  | nil => simp [dropSlashes] at h
  | cons a s ih =>
    simp only [dropSlashes] at h
    split at h
    · exact ih h
    · next hne =>
      injection h with h1 _
      exact h1 ▸ hne

theorem slashes_dropSlashes (sl : List Char) (h : ∀ c ∈ sl, c = '/') :
    dropSlashes sl = [] := by
  induction sl with
  | nil => rfl
  | cons c t ih =>
    have hc : c = '/' := h c (by simp)
    simp only [dropSlashes, if_pos hc]
    exact ih (fun x hx => h x (by simp [hx]))

theorem dropSlashes_append_cons (src : List Char) (c : Char) (t sl : List Char)
    (h : dropSlashes src = c :: t) : dropSlashes (src ++ sl) = c :: (t ++ sl) := by
  induction src with
  | nil => simp [dropSlashes] at h
  | cons a s ih =>
    simp only [dropSlashes] at h ⊢
    by_cases ha : a = '/'
    · rw [if_pos ha] at h ⊢
      exact ih h
    · rw [if_neg ha] at h ⊢
      injection h with h1 h2
      subst h1; subst h2; rfl

theorem copyPart_length (s : List Char) : ∀ n p r, copyPart s n = some (p, r) →
    p.length + r.length = s.length := by
  induction s with
  | nil =>
    intro n p r h
    simp only [copyPart, Option.some.injEq, Prod.mk.injEq] at h
    simp [← h.1, ← h.2]
  | cons c t ih =>
    intro n p r h
    by_cases hc : c = '/'
    · simp only [copyPart, if_pos hc, Option.some.injEq, Prod.mk.injEq] at h
      simp [← h.1, ← h.2]
    · cases n with
      | zero => simp [copyPart, hc] at h
      | succ m =>
        cases h2 : copyPart t m with
        | none => simp [copyPart, hc, h2] at h
        | some pr =>
          simp only [copyPart, if_neg hc, h2, Option.some.injEq, Prod.mk.injEq] at h
          obtain ⟨h3, h4⟩ := h
          have := ih m pr.1 pr.2 (by rw [h2])
          rw [← h3, ← h4]
          simp only [List.length_cons]
          omega

theorem copyPart_part_le (s : List Char) : ∀ n p r, copyPart s n = some (p, r) →
    p.length ≤ n := by
  induction s with
  | nil =>
    intro n p r h
    simp only [copyPart, Option.some.injEq, Prod.mk.injEq] at h
    simp [← h.1]
  | cons c t ih =>
    intro n p r h
    by_cases hc : c = '/'
    · simp only [copyPart, if_pos hc, Option.some.injEq, Prod.mk.injEq] at h
      simp [← h.1]
    · cases n with
      | zero => simp [copyPart, hc] at h
      | succ m =>
        cases h2 : copyPart t m with
        | none => simp [copyPart, hc, h2] at h
        | some pr =>
          simp only [copyPart, if_neg hc, h2, Option.some.injEq, Prod.mk.injEq] at h
          obtain ⟨h3, _⟩ := h
          have := ih m pr.1 pr.2 (by rw [h2])
          rw [← h3]
          simp only [List.length_cons]
          omega

theorem copyPart_append_slash (s : List Char) :
    ∀ n p r (sl : List Char), copyPart s n = some (p, r) → sl ≠ [] →
    (∀ c ∈ sl, c = '/') → copyPart (s ++ sl) n = some (p, r ++ sl) := by
  induction s with
  | nil =>
    intro n p r sl h hne hsl
    simp only [copyPart, Option.some.injEq, Prod.mk.injEq] at h
    cases sl with
    | nil => exact absurd rfl hne
    | cons c t =>
      have hc : c = '/' := hsl c (by simp)
      simp [copyPart, hc, ← h.1, ← h.2]
  | cons c t ih =>
    intro n p r sl h hne hsl
    by_cases hc : c = '/'
    · simp only [copyPart, if_pos hc, Option.some.injEq, Prod.mk.injEq] at h
      simp [copyPart, hc, ← h.1, ← h.2]
    · cases n with
      | zero => simp [copyPart, hc] at h
      | succ m =>
        cases h2 : copyPart t m with
        | none => simp [copyPart, hc, h2] at h
        | some pr =>
          simp only [copyPart, if_neg hc, h2, Option.some.injEq, Prod.mk.injEq] at h
          obtain ⟨h3, h4⟩ := h
          have h5 := ih m pr.1 pr.2 sl (by rw [h2]) hne hsl
          simp [List.cons_append, copyPart, if_neg hc, h5, ← h3, ← h4]

theorem copyPart_cons_ne_slash (c : Char) (t : List Char) (hc : ¬ c = '/') :
    ∀ n p r, copyPart (c :: t) n = some (p, r) → ∃ p', p = c :: p' := by
  intro n p r h
  cases n with
  | zero => simp [copyPart, hc] at h
  | succ m =>
    cases h2 : copyPart t m with
    | none => simp [copyPart, hc, h2] at h
    | some pr =>
      simp only [copyPart, if_neg hc, h2, Option.some.injEq, Prod.mk.injEq] at h
      exact ⟨pr.1, h.1.symm⟩

theorem gnp_ok_part (src p rest : List Char) (h : get_next_part src = PartResult.ok p rest) :
    p ≠ [] ∧ p.length ≤ NAME_MAX ∧ rest.length < src.length := by
  simp only [get_next_part] at h
  cases h1 : dropSlashes src with
  | nil => simp [h1] at h
  | cons c t =>
    rw [h1] at h
    have hc := dropSlashes_head_ne src c t h1
    cases h2 : copyPart (c :: t) NAME_MAX with
    | none => simp [h2] at h
    | some pr =>
      simp only [h2] at h
      obtain ⟨h3, h4⟩ : pr.1 = p ∧ pr.2 = rest := by
        cases hpr : pr
        rw [hpr] at h
        simp only [PartResult.ok.injEq] at h
        simp [hpr, h.1, h.2]
      have hlen := copyPart_length (c :: t) NAME_MAX pr.1 pr.2 (by rw [h2])
      have hle := copyPart_part_le (c :: t) NAME_MAX pr.1 pr.2 (by rw [h2])
      have hpn : pr.1 ≠ [] := by
        intro hnil
        obtain ⟨p', hp'⟩ := copyPart_cons_ne_slash c t hc NAME_MAX pr.1 pr.2 (by rw [h2])
        rw [hp'] at hnil
        simp at hnil
      refine ⟨h3 ▸ hpn, h3 ▸ hle, ?_⟩
      have hcl : (c :: t).length ≤ src.length := by
        have := dropSlashes_length_le src
        rw [h1] at this; exact this
      have hp1 : 1 ≤ pr.1.length := by
        cases hq : pr.1 with
        | nil => exact absurd hq hpn
        | cons x y => simp
      simp only [List.length_cons] at hlen hcl
      rw [← h4]
      omega

theorem gnp_endOfPath_iff (src : List Char) :
    get_next_part src = PartResult.endOfPath ↔ dropSlashes src = [] := by
  simp only [get_next_part]
  cases h1 : dropSlashes src with
  | nil => simp
  | cons c t =>
    simp only [List.cons_ne_nil, iff_false]
    cases h2 : copyPart (c :: t) NAME_MAX with
    | none => simp
    | some pr => simp

theorem gnp_append_slashes (src p rest sl : List Char)
    (h : get_next_part src = PartResult.ok p rest) (hne : sl ≠ [])
    (hsl : ∀ c ∈ sl, c = '/') :
    get_next_part (src ++ sl) = PartResult.ok p (rest ++ sl) := by
  simp only [get_next_part] at h ⊢
  cases h1 : dropSlashes src with
  | nil => simp [h1] at h
  | cons c t =>
    rw [h1] at h
    rw [dropSlashes_append_cons src c t sl h1]
    cases h2 : copyPart (c :: t) NAME_MAX with
    | none => simp [h2] at h
    | some pr =>
      simp only [h2] at h
      obtain ⟨h3, h4⟩ : pr.1 = p ∧ pr.2 = rest := by
        cases hpr : pr
        rw [hpr] at h
        simp only [PartResult.ok.injEq] at h
        simp [hpr, h.1, h.2]
      have h5 := copyPart_append_slash (c :: t) NAME_MAX pr.1 pr.2 sl (by rw [h2]) hne hsl
      simp only [List.cons_append] at h5
      simp [h5, h3, h4]

theorem loop_fuel_irrel (fs : FS) :
    ∀ n m src fn cwd ni, src.length < n → src.length < m →
    find_file_loop fs n src fn cwd ni = find_file_loop fs m src fn cwd ni := by
  intro n
  induction n with
  | zero => intro m src fn cwd ni h1 _; omega
  | succ n ih =>
    intro m src fn cwd ni h1 h2
    cases m with
    | zero => omega
    | succ m' =>
      cases hg : get_next_part src with
      | tooLong => simp [find_file_loop, hg]
      | endOfPath => simp [find_file_loop, hg]
      | ok part rest =>
        cases hl : pureLookup fs cwd part with
        | some ino =>
          by_cases hr : rest = []
          · simp [find_file_loop, hg, hl, hr]
          · have hlen := (gnp_ok_part src part rest hg).2.2
            have heq := ih m' rest part (some ino) (some ino) (by omega) (by omega)
            simp [find_file_loop, hg, hl, hr, heq]
        | none => simp [find_file_loop, hg, hl]

theorem find_file_loop_inv (fs : FS) :
    ∀ fuel src fn c ni, loopInv fs (find_file_loop fs fuel src fn (some c) ni) := by
  intro fuel
  induction fuel with
  | zero =>
    intro src fn c ni
    refine ⟨rfl, Or.inl rfl, ?_, ?_⟩ <;> intro h <;> simp [find_file_loop] at h
  | succ n ih =>
    intro src fn c ni
    cases hg : get_next_part src with
    | tooLong =>
      refine ⟨?_, ?_, ?_, ?_⟩ <;> simp [find_file_loop, hg]
    | endOfPath =>
      refine ⟨?_, ?_, ?_, ?_⟩ <;> simp [find_file_loop, hg]
    | ok part rest =>
      cases hl : pureLookup fs (some c) part with
      | some ino =>
        by_cases hr : rest = []
        · subst hr
          refine ⟨?_, ?_, ?_, ?_⟩ <;> simp [find_file_loop, hg, hl]
        · have hrec := ih rest part ino (some ino)
          obtain ⟨ha, hb, hc2, hd⟩ := hrec
          refine ⟨?_, ?_, ?_, ?_⟩ <;>
            simp only [find_file_loop, hg, hl, if_neg hr] <;>
            [exact ha; exact hb; exact hc2; exact hd]
      | none =>
        by_cases hr : rest = []
        · subst hr
          refine ⟨?_, ?_, ?_, ?_⟩ <;> simp [find_file_loop, hg, hl]
        · refine ⟨?_, ?_, ?_, ?_⟩ <;> simp [find_file_loop, hg, hl, hr]

theorem sectorOf_some (c : Sector) : sectorOf (some c) = c := rfl

theorem find_file_loop_dir_evs (fs : FS) :
    ∀ fuel src fn c ni,
    dirDisciplined 1 (find_file_loop fs fuel src fn (some c) ni).evs = true
    ∧ Multiset.ofList (dopens (find_file_loop fs fuel src fn (some c) ni).evs) + {c}
      = Multiset.ofList (dcloses (find_file_loop fs fuel src fn (some c) ni).evs)
        + {sectorOf (find_file_loop fs fuel src fn (some c) ni).cwd} := by
  intro fuel
  induction fuel with
  | zero =>
    intro src fn c ni
    exact ⟨rfl, by simp [find_file_loop, dopens, dcloses, sectorOf]⟩
  | succ n ih =>
    intro src fn c ni
    cases hg : get_next_part src with
    | tooLong =>
      refine ⟨?_, ?_⟩ <;> simp [find_file_loop, hg, dopens, dcloses, dirDisciplined, sectorOf]
    | endOfPath =>
      refine ⟨?_, ?_⟩ <;> simp [find_file_loop, hg, dopens, dcloses, dirDisciplined, sectorOf]
    | ok part rest =>
      cases hl : pureLookup fs (some c) part with
      | some ino =>
        by_cases hr : rest = []
        · subst hr
          refine ⟨?_, ?_⟩ <;>
            simp [find_file_loop, hg, hl, dopens, dcloses, dirDisciplined, sectorOf]
        · obtain ⟨ihd, ihm⟩ := ih rest part ino (some ino)
          constructor
          · simp only [find_file_loop, hg, hl, if_neg hr]
            exact ihd
          · simp only [find_file_loop, hg, hl, if_neg hr]
            simp only [dopens, dcloses, dir_close_evs, List.cons_append, List.nil_append,
              List.filterMap_cons] at ihm ⊢
            simp only [← Multiset.cons_coe]
            calc (ino ::ₘ (Multiset.ofList
                    (List.filterMap (fun e => match e with | Ev.dopen s => some s | _ => none)
                      (find_file_loop fs n rest part (some ino) (some ino)).evs))) + {c}
                = (Multiset.ofList
                    (List.filterMap (fun e => match e with | Ev.dopen s => some s | _ => none)
                      (find_file_loop fs n rest part (some ino) (some ino)).evs) + {ino}) + {c} := by
                  rw [← Multiset.singleton_add]
                  abel
              _ = (Multiset.ofList
                    (List.filterMap (fun e => match e with | Ev.dclose s => some s | _ => none)
                      (find_file_loop fs n rest part (some ino) (some ino)).evs)
                    + {sectorOf (find_file_loop fs n rest part (some ino) (some ino)).cwd}) + {c} := by
                  rw [ihm]
              _ = (c ::ₘ Multiset.ofList
                    (List.filterMap (fun e => match e with | Ev.dclose s => some s | _ => none)
                      (find_file_loop fs n rest part (some ino) (some ino)).evs))
                    + {sectorOf (find_file_loop fs n rest part (some ino) (some ino)).cwd} := by
                  rw [← Multiset.singleton_add]
                  abel
      | none =>
        by_cases hr : rest = []
        · subst hr
          refine ⟨?_, ?_⟩ <;>
            simp [find_file_loop, hg, hl, dopens, dcloses, dirDisciplined, sectorOf]
        · refine ⟨?_, ?_⟩ <;>
            simp [find_file_loop, hg, hl, hr, dopens, dcloses, dirDisciplined, sectorOf]

theorem find_file_inv (fs : FS) (src : List Char) : loopInv fs (find_file fs src) := by
  have h := find_file_loop_inv fs (src.length + 1) src []
    (if src.head? = some '/' then ROOT_DIR_SECTOR else fs.cwd_sector) none
  exact h

/-- C10: under every outcome the resolver hands its caller a non-null open
parent-directory handle; it opens the start directory unconditionally
before the walk (the trace begins with that open), holds at most one
directory handle at a time during the walk (the live count never exceeds
one and every close has a live handle), and closes every directory handle
it opened except the returned one — so the caller owns, and must close,
the returned handle even on failure. -/
theorem C10_resolver_parent_handle (fs : FS) (src : List Char) :
    (find_file fs src).cwd.isSome = true
    ∧ (∃ s t, (find_file fs src).evs = Ev.iopen s :: Ev.dopen s :: t)
    ∧ dirDisciplined 0 (find_file fs src).evs = true
    ∧ Multiset.ofList (dopens (find_file fs src).evs)
      = Multiset.ofList (dcloses (find_file fs src).evs) + {sectorOf (find_file fs src).cwd} := by
  have hl := find_file_loop_dir_evs fs (src.length + 1) src []
    (if src.head? = some '/' then ROOT_DIR_SECTOR else fs.cwd_sector) none
  have hi := find_file_inv fs src
  refine ⟨hi.1, ⟨_, _, rfl⟩, ?_, ?_⟩
  · have hstep : dirDisciplined 0 (find_file fs src).evs
        = dirDisciplined 1 (find_file_loop fs (src.length + 1) src []
            (some (if src.head? = some '/' then ROOT_DIR_SECTOR else fs.cwd_sector)) none).evs := rfl
    rw [hstep]
    exact hl.1
  · have hdo : dopens (find_file fs src).evs
        = (if src.head? = some '/' then ROOT_DIR_SECTOR else fs.cwd_sector)
          :: dopens (find_file_loop fs (src.length + 1) src []
            (some (if src.head? = some '/' then ROOT_DIR_SECTOR else fs.cwd_sector)) none).evs := rfl
    have hdc : dcloses (find_file fs src).evs
        = dcloses (find_file_loop fs (src.length + 1) src []
            (some (if src.head? = some '/' then ROOT_DIR_SECTOR else fs.cwd_sector)) none).evs := rfl
    rw [hdo, hdc, ← Multiset.cons_coe, ← Multiset.singleton_add]
    have hm := hl.2
    calc {if src.head? = some '/' then ROOT_DIR_SECTOR else fs.cwd_sector}
          + Multiset.ofList (dopens (find_file_loop fs (src.length + 1) src []
              (some (if src.head? = some '/' then ROOT_DIR_SECTOR else fs.cwd_sector)) none).evs)
        = Multiset.ofList (dopens (find_file_loop fs (src.length + 1) src []
              (some (if src.head? = some '/' then ROOT_DIR_SECTOR else fs.cwd_sector)) none).evs)
          + {if src.head? = some '/' then ROOT_DIR_SECTOR else fs.cwd_sector} := by abel
      _ = Multiset.ofList (dcloses (find_file_loop fs (src.length + 1) src []
              (some (if src.head? = some '/' then ROOT_DIR_SECTOR else fs.cwd_sector)) none).evs)
          + {sectorOf (find_file_loop fs (src.length + 1) src []
              (some (if src.head? = some '/' then ROOT_DIR_SECTOR else fs.cwd_sector)) none).cwd} := hm
      _ = Multiset.ofList (dcloses (find_file_loop fs (src.length + 1) src []
              (some (if src.head? = some '/' then ROOT_DIR_SECTOR else fs.cwd_sector)) none).evs)
          + {sectorOf (find_file fs src).cwd} := rfl

/-- C5: the resolver classifies every path into exactly one of the three
outcomes.  The first block gives the outcome-to-carried-data direction for
every state and path: trichotomy, a 0 result carries the parent handle and
no inode with the final component missing from that parent, a 1 result
carries the parent handle and the resolved inode, and a too-long first
component or a path with zero components yields Invalid.  The second block
gives the forward classification rules of the walk, as exact equations on
the embedded loop body, for every state, fuel, cursor and current
directory: a too-long component yields Invalid; end of path yields Invalid
(covering the zero-component path); a lookup miss on the final component
(no characters remaining) yields NotFoundAsLast carrying the current
(parent) directory handle and no inode; a lookup miss on a non-final
component yields Invalid; a lookup hit on the final component yields
FoundAsLast carrying the parent handle and the newly opened inode; and a
hit on a non-final component closes the current directory, opens the
matched inode as the new directory, and continues — so the rules determine
the resolver's answer on every path.  The third block links `find_file` to
the walk: it starts the loop at root for a leading separator, else at the
thread's working directory.  Last, in the concrete scenario where root
contains directory "a" and "a" does not contain "b", resolving "/a/b/c"
yields Invalid (the miss is on the non-final component "b"), not
NotFoundAsLast. -/
theorem C5_resolver_classification :
    (∀ fs src,
      ((find_file fs src).res = -1 ∨ (find_file fs src).res = 0 ∨ (find_file fs src).res = 1)
      ∧ ((find_file fs src).res = 0 →
          (find_file fs src).inode = none ∧ (find_file fs src).cwd.isSome = true
          ∧ pureLookup fs (find_file fs src).cwd (find_file fs src).filename = none)
      ∧ ((find_file fs src).res = 1 →
          (∃ s, (find_file fs src).inode = some s
            ∧ pureLookup fs (find_file fs src).cwd (find_file fs src).filename = some s)
          ∧ (find_file fs src).cwd.isSome = true)
      ∧ (get_next_part src = PartResult.tooLong → (find_file fs src).res = -1)
      ∧ (get_next_part src = PartResult.endOfPath → (find_file fs src).res = -1))
    ∧ (∀ fs (fuel : Nat) (src fn : List Char) (c : Sector) (ni : Option Sector),
      (get_next_part src = PartResult.tooLong →
        find_file_loop fs (fuel + 1) src fn (some c) ni = ⟨-1, fn, some c, ni, []⟩)
      ∧ (get_next_part src = PartResult.endOfPath →
        find_file_loop fs (fuel + 1) src fn (some c) ni = ⟨-1, fn, some c, ni, []⟩)
      ∧ (∀ part rest, get_next_part src = PartResult.ok part rest →
        (pureLookup fs (some c) part = none → rest = [] →
          find_file_loop fs (fuel + 1) src fn (some c) ni = ⟨0, part, some c, none, []⟩)
        ∧ (pureLookup fs (some c) part = none → ¬ rest = [] →
          find_file_loop fs (fuel + 1) src fn (some c) ni = ⟨-1, part, some c, none, []⟩)
        ∧ (∀ ino, pureLookup fs (some c) part = some ino → rest = [] →
          find_file_loop fs (fuel + 1) src fn (some c) ni
            = ⟨1, part, some c, some ino, [Ev.iopen ino]⟩)
        ∧ (∀ ino, pureLookup fs (some c) part = some ino → ¬ rest = [] →
          find_file_loop fs (fuel + 1) src fn (some c) ni
            = ⟨(find_file_loop fs fuel rest part (some ino) (some ino)).res,
               (find_file_loop fs fuel rest part (some ino) (some ino)).filename,
               (find_file_loop fs fuel rest part (some ino) (some ino)).cwd,
               (find_file_loop fs fuel rest part (some ino) (some ino)).inode,
               [Ev.iopen ino] ++ dir_close_evs (some c) ++ [Ev.dopen ino]
                 ++ (find_file_loop fs fuel rest part (some ino) (some ino)).evs⟩)))
    ∧ (∀ fs src, find_file fs src
      = ⟨(find_file_loop fs (src.length + 1) src []
            (some (if src.head? = some '/' then ROOT_DIR_SECTOR else fs.cwd_sector)) none).res,
          (find_file_loop fs (src.length + 1) src []
            (some (if src.head? = some '/' then ROOT_DIR_SECTOR else fs.cwd_sector)) none).filename,
          (find_file_loop fs (src.length + 1) src []
            (some (if src.head? = some '/' then ROOT_DIR_SECTOR else fs.cwd_sector)) none).cwd,
          (find_file_loop fs (src.length + 1) src []
            (some (if src.head? = some '/' then ROOT_DIR_SECTOR else fs.cwd_sector)) none).inode,
          [Ev.iopen (if src.head? = some '/' then ROOT_DIR_SECTOR else fs.cwd_sector),
           Ev.dopen (if src.head? = some '/' then ROOT_DIR_SECTOR else fs.cwd_sector)]
            ++ (find_file_loop fs (src.length + 1) src []
              (some (if src.head? = some '/' then ROOT_DIR_SECTOR else fs.cwd_sector)) none).evs⟩)
    ∧ (find_file fsA ['/', 'a', '/', 'b', '/', 'c']).res = -1 := by
  refine ⟨?_, ?_, ?_, ?_⟩
  · intro fs src
    obtain ⟨h1, h2, h3, h4⟩ := find_file_inv fs src
    refine ⟨h2, fun h0 => ⟨(h3 h0).1, h1, (h3 h0).2⟩, fun h0 => ⟨h4 h0, h1⟩, ?_, ?_⟩
    · intro hg
      simp [find_file, find_file_loop, hg]
    · intro hg
      simp [find_file, find_file_loop, hg]
  · intro fs fuel src fn c ni
    refine ⟨?_, ?_, ?_⟩
    · intro hg
      simp [find_file_loop, hg]
    · intro hg
      simp [find_file_loop, hg]
    · intro part rest hg
      refine ⟨?_, ?_, ?_, ?_⟩
      · intro hl hr
        subst hr
        simp [find_file_loop, hg, hl]
      · intro hl hr
        simp [find_file_loop, hg, hl, hr]
      · intro ino hl hr
        subst hr
        simp [find_file_loop, hg, hl]
      · intro ino hl hr
        simp [find_file_loop, hg, hl, hr]
  · intro fs src
    rfl
  · decide

theorem C5_witness :
    ((∃ s, (find_file fsA ['a']).inode = some s
      ∧ pureLookup fsA (find_file fsA ['a']).cwd (find_file fsA ['a']).filename = some s)
    ∧ (find_file fsA ['a']).cwd.isSome = true)
    ∧ find_file_loop fsA 1 ['x'] [] (some 1) none = ⟨0, ['x'], some 1, none, []⟩
    ∧ find_file_loop fsA 1 ['a'] [] (some 1) none = ⟨1, ['a'], some 1, some 2, [Ev.iopen 2]⟩ :=
  ⟨(C5_resolver_classification.1 fsA ['a']).2.2.1 (by decide),
   (((C5_resolver_classification.2.1 fsA 0 ['x'] [] 1 none).2.2 ['x'] [] (by decide)).1
     (by decide) rfl),
   ((((C5_resolver_classification.2.1 fsA 0 ['a'] [] 1 none).2.2 ['a'] [] (by decide)).2.2.1 2
     (by decide) rfl))⟩

/-- C1 fails on the code: with an empty root, one free sector 3, and an
injected failure of `DirectoryAdd` for the "." entry of the new directory,
`Create("d", 0, true)` returns false and releases sector 3 — but, because
`success &= dir_add (parent_dir, filename, inode_sector)` evaluates the
parent insertion unconditionally, the entry "d" (pointing at the released
sector 3) is visible in the parent afterwards: the namespace is not as it
was before the call. -/
theorem C1_create_partial_mutation :
    (filesys_create fsC1 ['d'] 0 true).2.1 = false
    ∧ (filesys_create fsC1 ['d'] 0 true).1.freeSectors = [3]
    ∧ pureLookup (filesys_create fsC1 ['d'] 0 true).1 (some ROOT_DIR_SECTOR) ['d'] = some 3 := by
  decide

/-- C2 fails on the code: in `filesys_remove` the inode handle opened by
resolution (sector 2) is never closed — opened once, released zero times;
and in `filesys_open` on the path "/a/" the stale `*next_inode` alias to
the inode consumed by the walk's `dir_open` is closed a second time —
opened once, released twice. -/
theorem C2_handle_release_violated :
    ((iopens (filesys_remove fsA ['/', 'a']).2.2).count 2 = 1
      ∧ (icloses (filesys_remove fsA ['/', 'a']).2.2).count 2 = 0)
    ∧ ((iopens (filesys_open fsA ['/', 'a', '/']).2).count 2 = 1
      ∧ (icloses (filesys_open fsA ['/', 'a', '/']).2).count 2 = 2) := by
  decide

/-- C3 fails on the code: with root (the working directory, sector 1)
containing "a" at sector 2, the path "/a" resolves FoundAsLast to an inode
distinct from the working directory, yet `Remove("/a")` returns false and
removes nothing, because `filesys_remove` passes the whole path string
`name` — not the parsed final component `filename` — to `dir_remove`, and
the parent directory has no entry literally named "/a". -/
theorem C3_remove_full_path_bug :
    (find_file fsA ['/', 'a']).res = 1
    ∧ sectorOf (find_file fsA ['/', 'a']).inode ≠ fsA.cwd_sector
    ∧ (filesys_remove fsA ['/', 'a']).2.1 = false
    ∧ (filesys_remove fsA ['/', 'a']).1 = fsA := by
  decide

/-- C4 as stated is false: appending a trailing separator changes the
Resolution Outcome.  "/a" (root contains directory "a") resolves
FoundAsLast, but "/a/" resolves Invalid, and Open's result changes from a
directory handle to absent. -/
theorem C4_trailing_separator_counterexample :
    (find_file fsA ['/', 'a']).res = 1
    ∧ (find_file fsA ['/', 'a', '/']).res = -1
    ∧ (filesys_open fsA ['/', 'a']).1 = OpenResult.dirH 2
    ∧ (filesys_open fsA ['/', 'a', '/']).1 = OpenResult.absent := by
  decide

theorem create_fail_shape (fs : FS) (name : List Char) (sz : Nat) (b : Bool)
    (h : ¬ (find_file fs name).res = 0) :
    (filesys_create fs name sz b).1 = fs ∧ (filesys_create fs name sz b).2.1 = false := by
  simp [filesys_create, h]

theorem open_absent_shape (fs : FS) (name : List Char)
    (h : ¬ (find_file fs name).res = 1) :
    (filesys_open fs name).1 = OpenResult.absent := by
  simp [filesys_open, h]

theorem remove_fail_shape (fs : FS) (name : List Char)
    (h : ¬ (find_file fs name).res = 1) :
    (filesys_remove fs name).1 = fs ∧ (filesys_remove fs name).2.1 = false := by
  simp [filesys_remove, h]

theorem chdir_fail_shape (fs : FS) (path : List Char)
    (h : ¬ (find_file fs path).res = 1) :
    (filesys_change_dir fs path).1 = fs ∧ (filesys_change_dir fs path).2.1 = false := by
  simp [filesys_change_dir, h]

theorem loop_append_slashes (fs : FS) :
    ∀ fuel src fn cwd ni ni' sl, sl ≠ [] → (∀ c ∈ sl, c = '/') →
    (src ++ sl).length < fuel →
    ((find_file_loop fs fuel src fn cwd ni).res = 0
      ∨ (find_file_loop fs fuel src fn cwd ni).res = 1) →
    (find_file_loop fs fuel (src ++ sl) fn cwd ni').res = -1 := by
  intro fuel
  induction fuel with
  | zero =>
    intro src fn cwd ni ni' sl _ _ hlen _
    omega
  | succ n ih =>
    intro src fn cwd ni ni' sl hne hsl hlen h
    cases hg : get_next_part src with
    | tooLong => simp [find_file_loop, hg] at h
    | endOfPath => simp [find_file_loop, hg] at h
    | ok part rest =>
      have hga : get_next_part (src ++ sl) = PartResult.ok part (rest ++ sl) :=
        gnp_append_slashes src part rest sl hg hne hsl
      have hsrc1 : 1 ≤ src.length := by
        have := (gnp_ok_part src part rest hg).2.2
        omega
      have hsl1 : 1 ≤ sl.length := by
        cases sl with
        | nil => exact absurd rfl hne
        | cons a t => simp
      have hlen' : src.length + sl.length < n + 1 := by
        rw [List.length_append] at hlen
        exact hlen
      cases hl : pureLookup fs cwd part with
      | some ino =>
        by_cases hr : rest = []
        · subst hr
          have hsl0 : get_next_part sl = PartResult.endOfPath := by
            rw [gnp_endOfPath_iff]
            exact slashes_dropSlashes sl hsl
          cases n with
          | zero => omega
          | succ m =>
            simp [find_file_loop, hga, hl, hne, hsl0]
        · have hrl := (gnp_ok_part src part rest hg).2.2
          have hrec : (find_file_loop fs n rest part (some ino) (some ino)).res = 0
              ∨ (find_file_loop fs n rest part (some ino) (some ino)).res = 1 := by
            simpa [find_file_loop, hg, hl, hr] using h
          have hra := ih rest part (some ino) (some ino) (some ino) sl hne hsl
            (by rw [List.length_append]; omega) hrec
          have hrs : ¬ rest ++ sl = [] := by
            cases rest with
            | nil => exact absurd rfl hr
            | cons a t => simp
          simp [find_file_loop, hga, hl, hrs, hra]
      | none =>
        by_cases hr : rest = []
        · subst hr
          simp [find_file_loop, hga, hl, hne]
        · simp [find_file_loop, hg, hl, hr] at h

/-- C4 amended: appending one or more separator characters to a path whose
resolution is FoundAsLast or NotFoundAsLast changes the outcome to Invalid
— the resolver's end-of-path test sees the trailing separators as
remaining characters — and consequently Create, Open, Remove and
ChangeDirectory all fail on the separator-suffixed path, leaving the state
unchanged. -/
theorem C4_trailing_separators_invalid (fs : FS) (p sl : List Char) (sz : Nat) (b : Bool)
    (hne : sl ≠ []) (hsl : ∀ c ∈ sl, c = '/')
    (h : (find_file fs p).res = 0 ∨ (find_file fs p).res = 1) :
    (find_file fs (p ++ sl)).res = -1
    ∧ (filesys_create fs (p ++ sl) sz b).1 = fs
    ∧ (filesys_create fs (p ++ sl) sz b).2.1 = false
    ∧ (filesys_open fs (p ++ sl)).1 = OpenResult.absent
    ∧ (filesys_remove fs (p ++ sl)).1 = fs
    ∧ (filesys_remove fs (p ++ sl)).2.1 = false
    ∧ (filesys_change_dir fs (p ++ sl)).1 = fs
    ∧ (filesys_change_dir fs (p ++ sl)).2.1 = false := by
  have hres : (find_file fs (p ++ sl)).res = -1 := by
    cases hp : p with
    | nil =>
      subst hp
      have : get_next_part ([] : List Char) = PartResult.endOfPath := rfl
      simp [find_file, find_file_loop, this] at h
    | cons a t =>
      rw [← hp]
      have hhead : (p ++ sl).head? = p.head? := by rw [hp]; rfl
      have hloop : (find_file_loop fs (p.length + 1) p []
          (some (if p.head? = some '/' then ROOT_DIR_SECTOR else fs.cwd_sector)) none).res = 0
          ∨ (find_file_loop fs (p.length + 1) p []
          (some (if p.head? = some '/' then ROOT_DIR_SECTOR else fs.cwd_sector)) none).res = 1 := h
      have hbump := loop_fuel_irrel fs (p.length + 1) ((p ++ sl).length + 1) p []
        (some (if p.head? = some '/' then ROOT_DIR_SECTOR else fs.cwd_sector)) none
        (by omega) (by simp; omega)
      rw [hbump] at hloop
      have happ := loop_append_slashes fs ((p ++ sl).length + 1) p []
        (some (if p.head? = some '/' then ROOT_DIR_SECTOR else fs.cwd_sector)) none none sl
        hne hsl (by omega) hloop
      show (find_file_loop fs ((p ++ sl).length + 1) (p ++ sl) []
          (some (if (p ++ sl).head? = some '/' then ROOT_DIR_SECTOR else fs.cwd_sector)) none).res
        = -1
      rw [hhead]
      exact happ
  have h0 : ¬ (find_file fs (p ++ sl)).res = 0 := by rw [hres]; decide
  have h1 : ¬ (find_file fs (p ++ sl)).res = 1 := by rw [hres]; decide
  exact ⟨hres, (create_fail_shape fs (p ++ sl) sz b h0).1,
    (create_fail_shape fs (p ++ sl) sz b h0).2, open_absent_shape fs (p ++ sl) h1,
    (remove_fail_shape fs (p ++ sl) h1).1, (remove_fail_shape fs (p ++ sl) h1).2,
    (chdir_fail_shape fs (p ++ sl) h1).1, (chdir_fail_shape fs (p ++ sl) h1).2⟩

theorem C4_amended_witness :
    (find_file fsA (['/', 'a'] ++ ['/'])).res = -1
    ∧ (filesys_open fsA (['/', 'a'] ++ ['/'])).1 = OpenResult.absent :=
  ⟨(C4_trailing_separators_invalid fsA ['/', 'a'] ['/'] 0 false (by decide) (by decide)
      (Or.inr (by decide))).1,
   (C4_trailing_separators_invalid fsA ['/', 'a'] ['/'] 0 false (by decide) (by decide)
      (Or.inr (by decide))).2.2.2.1⟩

/-- C8: ChangeDirectory succeeds exactly when resolution is FoundAsLast
and the resolved inode is a directory; on success the thread's
working-directory sector becomes the resolved inode's number; on failure
the state is unchanged; and whenever an inode was resolved its handle is
released (an `iclose` for it appears in the call's trace) in all cases. -/
theorem C8_change_dir (fs : FS) (p : List Char) :
    ((filesys_change_dir fs p).2.1 = true ↔
      ((find_file fs p).res = 1 ∧ inode_is_dir fs (find_file fs p).inode = true))
    ∧ ((filesys_change_dir fs p).2.1 = true →
        (filesys_change_dir fs p).1.cwd_sector = sectorOf (find_file fs p).inode)
    ∧ ((filesys_change_dir fs p).2.1 = false → (filesys_change_dir fs p).1 = fs)
    ∧ (∀ s, (find_file fs p).inode = some s →
        Ev.iclose s ∈ (filesys_change_dir fs p).2.2) := by
  refine ⟨?_, ?_, ?_, ?_⟩
  · by_cases h : ((find_file fs p).res = 1 ∧ inode_is_dir fs (find_file fs p).inode = true)
    · simp [filesys_change_dir, h]
    · simp [filesys_change_dir, h]
  · intro ht
    by_cases h : ((find_file fs p).res = 1 ∧ inode_is_dir fs (find_file fs p).inode = true)
    · simp [filesys_change_dir, h]
    · exfalso
      rw [show (filesys_change_dir fs p).2.1 = false by simp [filesys_change_dir, h]] at ht
      exact Bool.false_ne_true ht
  · intro hf
    by_cases h : ((find_file fs p).res = 1 ∧ inode_is_dir fs (find_file fs p).inode = true)
    · exfalso
      rw [show (filesys_change_dir fs p).2.1 = true by simp [filesys_change_dir, h]] at hf
      exact absurd hf (by simp)
    · simp [filesys_change_dir, h]
  · intro s hs
    simp [filesys_change_dir, hs, inode_close_evs]

theorem C8_witness :
    (filesys_change_dir fsA ['/', 'a']).1.cwd_sector = sectorOf (find_file fsA ['/', 'a']).inode :=
  (C8_change_dir fsA ['/', 'a']).2.1 (by decide)

theorem cwd_diskSet (fs : FS) (s : Sector) (d : InodeData) :
    (diskSet fs s d).cwd_sector = fs.cwd_sector := rfl

theorem cwd_release (fs : FS) (s : Sector) :
    (free_map_release fs s).cwd_sector = fs.cwd_sector := rfl

theorem cwd_allocate (fs : FS) : (free_map_allocate fs).1.cwd_sector = fs.cwd_sector := by
  cases h : fs.freeSectors <;> simp [free_map_allocate, h]

theorem cwd_inode_create (fs : FS) (s : Sector) (n : Nat) (b : Bool) :
    (inode_create fs s n b).1.cwd_sector = fs.cwd_sector := by
  by_cases h : s ∈ fs.createFails <;> simp [inode_create, h, cwd_diskSet]

theorem cwd_dir_add (fs : FS) (dirh : Option Sector) (name : List Char) (sector : Sector) :
    (dir_add fs dirh name sector).1.cwd_sector = fs.cwd_sector := by
  cases dirh with
  | none => rfl
  | some ds =>
    cases h : diskGet fs ds with
    | none => simp [dir_add, h]
    | some d =>
      by_cases h2 : (ds, name) ∈ fs.addFails
      · simp [dir_add, h, h2]
      · by_cases h3 : (entryGet d.entries name).isSome = true
        · simp [dir_add, h, h2, h3]
        · simp [dir_add, h, h2, h3, cwd_diskSet]

theorem cwd_dir_remove (fs : FS) (dirh : Option Sector) (name : List Char) :
    (dir_remove fs dirh name).1.cwd_sector = fs.cwd_sector := by
  cases dirh with
  | none => rfl
  | some ds =>
    cases h : diskGet fs ds with
    | none => simp [dir_remove, h]
    | some d =>
      by_cases h2 : (entryGet d.entries name).isSome = true
      · simp [dir_remove, h, h2, cwd_diskSet]
      · simp [dir_remove, h, h2]

theorem create_cwd (fs : FS) (name : List Char) (sz : Nat) (b : Bool) :
    (filesys_create fs name sz b).1.cwd_sector = fs.cwd_sector := by
  by_cases h0 : (find_file fs name).res = 0
  · cases hc : (find_file fs name).cwd with
    | none => simp [filesys_create, h0, hc]
    | some c =>
      rcases hfa : free_map_allocate fs with ⟨fs1, osec⟩
      have hfs1 : fs1.cwd_sector = fs.cwd_sector := by
        have := cwd_allocate fs; rw [hfa] at this; exact this
      cases osec with
      | none => simp [filesys_create, h0, hc, hfa, hfs1]
      | some ns =>
        rcases hic : inode_create fs1 ns sz b with ⟨fs2, okc⟩
        have hfs2 : fs2.cwd_sector = fs.cwd_sector := by
          have := cwd_inode_create fs1 ns sz b; rw [hic] at this; rw [this, hfs1]
        cases okc with
        | false => simp [filesys_create, h0, hc, hfa, hic, cwd_release, hfs2]
        | true =>
          simp only [filesys_create, h0, hc, hfa, hic]
          split
          · next hcontra => exact absurd (rfl : (0 : Int) = 0) hcontra
          · cases b with
            | false =>
              simp only [Bool.false_eq_true, if_false]
              repeat' split
              all_goals simp [cwd_dir_add, cwd_release, hfs2]
            | true =>
              simp only [if_pos rfl]
              repeat' split
              all_goals simp [cwd_dir_add, cwd_release, hfs2]
  · simp [filesys_create, h0]

theorem remove_cwd (fs : FS) (name : List Char) :
    (filesys_remove fs name).1.cwd_sector = fs.cwd_sector := by
  by_cases h : ((find_file fs name).res = 1 ∧ sectorOf (find_file fs name).inode ≠ fs.cwd_sector)
  · simp [filesys_remove, h, cwd_dir_remove]
  · simp [filesys_remove, h]

/-- C9: the thread's working-directory sector is written only by a
successful ChangeDirectory: Create and Remove leave it unchanged on every
input, and so does a failed ChangeDirectory.  (Open in this embedding
returns no state at all — `filesys_open` only reads the file system — so
it cannot write the working directory.) -/
theorem C9_cwd_frame (fs : FS) (name : List Char) (sz : Nat) (b : Bool) (p q : List Char) :
    (filesys_create fs name sz b).1.cwd_sector = fs.cwd_sector
    ∧ (filesys_remove fs p).1.cwd_sector = fs.cwd_sector
    ∧ ((filesys_change_dir fs q).2.1 = false →
        (filesys_change_dir fs q).1.cwd_sector = fs.cwd_sector) := by
  refine ⟨create_cwd fs name sz b, remove_cwd fs p, ?_⟩
  intro hf
  by_cases h : ((find_file fs q).res = 1 ∧ inode_is_dir fs (find_file fs q).inode = true)
  · exfalso
    rw [show (filesys_change_dir fs q).2.1 = true by simp [filesys_change_dir, h]] at hf
    exact absurd hf (by simp)
  · simp [filesys_change_dir, h]

theorem C9_witness :
    (filesys_change_dir fsA ['z']).2.1 = false
    ∧ (filesys_change_dir fsA ['z']).1.cwd_sector = fsA.cwd_sector :=
  ⟨by decide, (C9_cwd_frame fsA [] 0 false [] ['z']).2.2 (by decide)⟩

theorem assocGet_assocSet_self (l : List (Sector × InodeData)) (s : Sector) (d : InodeData) :
    assocGet (assocSet l s d) s = some d := by
  induction l with
  | nil => simp [assocGet, assocSet]
  | cons kv t ih =>
    rcases kv with ⟨k, v⟩
    by_cases h : k = s
    · simp [assocSet, assocGet, h]
    · simp [assocSet, assocGet, h, ih]

theorem assocGet_assocSet_ne (l : List (Sector × InodeData)) (s s' : Sector) (d : InodeData)
    (h : ¬ s' = s) : assocGet (assocSet l s d) s' = assocGet l s' := by
  induction l with
  | nil =>
    simp [assocGet, assocSet]
    intro h2
    exact absurd h2.symm h
  | cons kv t ih =>
    rcases kv with ⟨k, v⟩
    by_cases h2 : k = s
    · subst h2
      have hks : ¬ k = s' := fun hh => h hh.symm
      simp [assocSet, assocGet, hks]
    · simp [assocSet, assocGet, h2, ih]

theorem diskGet_diskSet_self (fs : FS) (s : Sector) (d : InodeData) :
    diskGet (diskSet fs s d) s = some d :=
  assocGet_assocSet_self fs.disk s d

theorem diskGet_diskSet_ne (fs : FS) (s s' : Sector) (d : InodeData) (h : ¬ s' = s) :
    diskGet (diskSet fs s d) s' = diskGet fs s' :=
  assocGet_assocSet_ne fs.disk s s' d h

theorem entryGet_append_some (l l' : List (List Char × Sector)) (n : List Char) (s : Sector)
    (h : entryGet l n = some s) : entryGet (l ++ l') n = some s := by
  induction l with
  | nil => simp [entryGet] at h
  | cons e t ih =>
    rcases e with ⟨en, es⟩
    by_cases h2 : en = n
    · simp only [entryGet, if_pos h2] at h
      simp [entryGet, h2, h]
    · simp only [entryGet, if_neg h2] at h
      simp [entryGet, h2, ih h]

theorem entryGet_append_none (l l' : List (List Char × Sector)) (n : List Char)
    (h : entryGet l n = none) : entryGet (l ++ l') n = entryGet l' n := by
  induction l with
  | nil => simp
  | cons e t ih =>
    rcases e with ⟨en, es⟩
    by_cases h2 : en = n
    · simp [entryGet, h2] at h
    · simp only [entryGet, if_neg h2] at h
      simp [entryGet, h2, ih h]

theorem loop_mono (fs fs' : FS) (hm : hitsMono fs fs') :
    ∀ fuel src fn c ni t,
    (find_file_loop fs fuel src fn (some c) ni).res = 0 →
    pureLookup fs' (find_file_loop fs fuel src fn (some c) ni).cwd
      (find_file_loop fs fuel src fn (some c) ni).filename = some t →
    (find_file_loop fs' fuel src fn (some c) ni).res = 1
    ∧ (find_file_loop fs' fuel src fn (some c) ni).inode = some t := by
  intro fuel
  induction fuel with
  | zero =>
    intro src fn c ni t h0 _
    simp [find_file_loop] at h0
  | succ n ih =>
    intro src fn c ni t h0 hl'
    cases hg : get_next_part src with
    | tooLong => simp [find_file_loop, hg] at h0
    | endOfPath => simp [find_file_loop, hg] at h0
    | ok part rest =>
      cases hl : pureLookup fs (some c) part with
      | some ino =>
        by_cases hr : rest = []
        · subst hr
          simp [find_file_loop, hg, hl] at h0
        · have hl2 : pureLookup fs' (some c) part = some ino := hm (some c) part ino hl
          have h0r : (find_file_loop fs n rest part (some ino) (some ino)).res = 0 := by
            simpa [find_file_loop, hg, hl, hr] using h0
          have hl'r : pureLookup fs' (find_file_loop fs n rest part (some ino) (some ino)).cwd
              (find_file_loop fs n rest part (some ino) (some ino)).filename = some t := by
            simpa [find_file_loop, hg, hl, hr] using hl'
          have hrec := ih rest part ino (some ino) t h0r hl'r
          constructor
          · simp [find_file_loop, hg, hl2, hr, hrec.1]
          · simp [find_file_loop, hg, hl2, hr, hrec.2]
      | none =>
        by_cases hr : rest = []
        · subst hr
          have hl'2 : pureLookup fs' (some c) part = some t := by
            simpa [find_file_loop, hg, hl] using hl'
          constructor
          · simp [find_file_loop, hg, hl'2]
          · simp [find_file_loop, hg, hl'2]
        · simp [find_file_loop, hg, hl, hr] at h0

theorem find_file_mono (fs fs' : FS) (hm : hitsMono fs fs')
    (hcwd : fs'.cwd_sector = fs.cwd_sector) (p : List Char) (t : Sector)
    (h0 : (find_file fs p).res = 0)
    (hl : pureLookup fs' (find_file fs p).cwd (find_file fs p).filename = some t) :
    (find_file fs' p).res = 1 ∧ (find_file fs' p).inode = some t := by
  have hrec := loop_mono fs fs' hm (p.length + 1) p []
    (if p.head? = some '/' then ROOT_DIR_SECTOR else fs.cwd_sector) none t h0 hl
  have hstart : (if p.head? = some '/' then ROOT_DIR_SECTOR else fs'.cwd_sector)
      = (if p.head? = some '/' then ROOT_DIR_SECTOR else fs.cwd_sector) := by rw [hcwd]
  constructor
  · show (find_file_loop fs' (p.length + 1) p []
        (some (if p.head? = some '/' then ROOT_DIR_SECTOR else fs'.cwd_sector)) none).res = 1
    rw [hstart]
    exact hrec.1
  · show (find_file_loop fs' (p.length + 1) p []
        (some (if p.head? = some '/' then ROOT_DIR_SECTOR else fs'.cwd_sector)) none).inode = some t
    rw [hstart]
    exact hrec.2

theorem addFails_diskSet (fs : FS) (s : Sector) (d : InodeData) :
    (diskSet fs s d).addFails = fs.addFails := rfl

/-- C6: if resolution of `P` is NotFoundAsLast and the collaborators
succeed (no injected `DirectoryAdd`/`InodeCreate` failures, a fresh free
sector available, the resolved parent present on disk), then
`Create(P, _, _)` returns true and a subsequent `Open(P)` on the resulting
state returns a handle of the requested kind (directory handle when
`isDirectory`, else file handle) for the newly allocated sector; and if
resolution of `P` is FoundAsLast then `Create(P, _, _)` returns false with
the state — free map included — exactly unchanged. -/
theorem C6_create_then_open (fs : FS) (p : List Char) (sz : Nat) (b : Bool)
    (ns c : Sector) (rest : List Sector) (dpar : InodeData)
    (hAF : fs.addFails = []) (hCF : fs.createFails = [])
    (hfree : fs.freeSectors = ns :: rest) (hfresh : diskGet fs ns = none)
    (hcwd : (find_file fs p).cwd = some c) (hpar : diskGet fs c = some dpar) :
    ((find_file fs p).res = 0 →
      (filesys_create fs p sz b).2.1 = true
      ∧ (filesys_open (filesys_create fs p sz b).1 p).1
          = (if b then OpenResult.dirH ns else OpenResult.fileH ns))
    ∧ ((find_file fs p).res = 1 →
      (filesys_create fs p sz b).2.1 = false ∧ (filesys_create fs p sz b).1 = fs) := by
  constructor
  · intro hres
    have hcne : ¬ c = ns := by
      intro h
      rw [h, hfresh] at hpar
      exact absurd hpar (by simp)
    have hnec : ¬ ns = c := fun h => hcne h.symm
    have hmiss : pureLookup fs (some c) (find_file fs p).filename = none := by
      have h := (find_file_inv fs p).2.2.1 hres
      rw [hcwd] at h
      exact h.2
    have hmiss2 : entryGet dpar.entries (find_file fs p).filename = none := by
      simpa [pureLookup, hpar] using hmiss
    have hif : ¬ ((find_file fs p).res ≠ 0) := by rw [hres]; decide
    have e1 : free_map_allocate fs = ({ fs with freeSectors := rest }, some ns) := by
      simp [free_map_allocate, hfree]
    have e2 : inode_create { fs with freeSectors := rest } ns sz b
        = (diskSet { fs with freeSectors := rest } ns ⟨b, [], sz⟩, true) := by
      simp [inode_create, hCF]
    have eP : ∀ X : FS, X.addFails = fs.addFails → diskGet X c = some dpar →
        dir_add X (some c) (find_file fs p).filename ns
        = (diskSet X c { dpar with entries :=
            dpar.entries ++ [((find_file fs p).filename, ns)] }, true) := by
      intro X hXa hXg
      simp [dir_add, hXg, hXa, hAF, hmiss2]
    have hmono : ∀ X : FS,
        (∀ s', ¬ s' = ns → ¬ s' = c → diskGet X s' = diskGet fs s') →
        diskGet X c = some { dpar with entries :=
          dpar.entries ++ [((find_file fs p).filename, ns)] } →
        hitsMono fs X := by
      intro X hother hc dh n s h
      match dh with
      | none => simp [pureLookup] at h
      | some d0 =>
        rcases hdg : diskGet fs d0 with _ | dd
        · simp [pureLookup, hdg] at h
        · have hent : entryGet dd.entries n = some s := by simpa [pureLookup, hdg] using h
          by_cases hd0ns : d0 = ns
          · exfalso
            rw [hd0ns, hfresh] at hdg
            exact absurd hdg (by simp)
          · by_cases hd0c : d0 = c
            · subst hd0c
              have hdd : dpar = dd := by
                rw [hpar] at hdg
                injection hdg
              simp only [pureLookup, hc]
              exact entryGet_append_some _ _ _ _ (hdd ▸ hent)
            · have hsame := hother d0 hd0ns hd0c
              simp [pureLookup, hsame, hdg, hent]
    cases b with
    | false =>
      have hg2 : diskGet (diskSet { fs with freeSectors := rest } ns ⟨false, [], sz⟩) c
          = some dpar := by
        rw [diskGet_diskSet_ne _ _ _ _ hcne]
        exact hpar
      have ePf := eP (diskSet { fs with freeSectors := rest } ns ⟨false, [], sz⟩) rfl hg2
      have hshape : filesys_create fs p sz false
          = (diskSet (diskSet { fs with freeSectors := rest } ns ⟨false, [], sz⟩) c
              { dpar with entries := dpar.entries ++ [((find_file fs p).filename, ns)] },
             true,
             (find_file fs p).evs ++ dir_close_evs (some c)) := by
        simp [filesys_create, if_neg hif, hcwd, e1, e2, ePf]
      have hcfinal : diskGet (filesys_create fs p sz false).1 c
          = some { dpar with entries := dpar.entries ++ [((find_file fs p).filename, ns)] } := by
        rw [hshape]
        exact diskGet_diskSet_self _ _ _
      have hother : ∀ s', ¬ s' = ns → ¬ s' = c →
          diskGet (filesys_create fs p sz false).1 s' = diskGet fs s' := by
        intro s' h1 h2
        rw [hshape]
        show diskGet _ s' = diskGet fs s'
        rw [diskGet_diskSet_ne _ _ _ _ h2, diskGet_diskSet_ne _ _ _ _ h1]
        rfl
      have hm := hmono (filesys_create fs p sz false).1 hother hcfinal
      have hlk : pureLookup (filesys_create fs p sz false).1 (find_file fs p).cwd
          (find_file fs p).filename = some ns := by
        rw [hcwd]
        simp only [pureLookup, hcfinal]
        rw [entryGet_append_none _ _ _ hmiss2]
        simp [entryGet]
      have hcw : (filesys_create fs p sz false).1.cwd_sector = fs.cwd_sector :=
        create_cwd fs p sz false
      have hopen := find_file_mono fs (filesys_create fs p sz false).1 hm hcw p ns hres hlk
      have hdirns : diskGet (filesys_create fs p sz false).1 ns = some ⟨false, [], sz⟩ := by
        rw [hshape]
        show diskGet _ ns = _
        rw [diskGet_diskSet_ne _ _ _ _ hnec]
        exact diskGet_diskSet_self _ _ _
      constructor
      · rw [hshape]
      · simp [filesys_open, hopen.1, hopen.2, inode_is_dir, hdirns, sectorOf]
    | true =>
      have hg4 : diskGet (diskSet (diskSet (diskSet { fs with freeSectors := rest } ns
            ⟨true, [], sz⟩) ns ⟨true, [(['.'], ns)], sz⟩) ns
            ⟨true, [(['.'], ns), (['.', '.'], c)], sz⟩) c = some dpar := by
        rw [diskGet_diskSet_ne _ _ _ _ hcne, diskGet_diskSet_ne _ _ _ _ hcne,
          diskGet_diskSet_ne _ _ _ _ hcne]
        exact hpar
      have e3 : dir_add (diskSet { fs with freeSectors := rest } ns ⟨true, [], sz⟩)
          (some ns) ['.'] ns
          = (diskSet (diskSet { fs with freeSectors := rest } ns ⟨true, [], sz⟩) ns
              ⟨true, [(['.'], ns)], sz⟩, true) := by
        simp [dir_add, diskGet_diskSet_self, hAF, entryGet, addFails_diskSet]
      have e4 : dir_add (diskSet (diskSet { fs with freeSectors := rest } ns ⟨true, [], sz⟩)
            ns ⟨true, [(['.'], ns)], sz⟩) (some ns) ['.', '.'] (sectorOf (some c))
          = (diskSet (diskSet (diskSet { fs with freeSectors := rest } ns ⟨true, [], sz⟩)
              ns ⟨true, [(['.'], ns)], sz⟩) ns ⟨true, [(['.'], ns), (['.', '.'], c)], sz⟩,
             true) := by
        simp [dir_add, diskGet_diskSet_self, hAF, entryGet, sectorOf, addFails_diskSet]
      have ePt := eP (diskSet (diskSet (diskSet { fs with freeSectors := rest } ns
          ⟨true, [], sz⟩) ns ⟨true, [(['.'], ns)], sz⟩) ns
          ⟨true, [(['.'], ns), (['.', '.'], c)], sz⟩) rfl hg4
      have hshape : filesys_create fs p sz true
          = (diskSet (diskSet (diskSet (diskSet { fs with freeSectors := rest } ns
              ⟨true, [], sz⟩) ns ⟨true, [(['.'], ns)], sz⟩) ns
              ⟨true, [(['.'], ns), (['.', '.'], c)], sz⟩) c
              { dpar with entries := dpar.entries ++ [((find_file fs p).filename, ns)] },
             true,
             (find_file fs p).evs
               ++ [Ev.iopen ns, Ev.dopen ns, Ev.dclose ns, Ev.iclose ns]
               ++ dir_close_evs (some c)) := by
        simp [filesys_create, if_neg hif, hcwd, e1, e2, e3, e4, ePt]
      have hcfinal : diskGet (filesys_create fs p sz true).1 c
          = some { dpar with entries := dpar.entries ++ [((find_file fs p).filename, ns)] } := by
        rw [hshape]
        exact diskGet_diskSet_self _ _ _
      have hother : ∀ s', ¬ s' = ns → ¬ s' = c →
          diskGet (filesys_create fs p sz true).1 s' = diskGet fs s' := by
        intro s' h1 h2
        rw [hshape]
        show diskGet _ s' = diskGet fs s'
        rw [diskGet_diskSet_ne _ _ _ _ h2, diskGet_diskSet_ne _ _ _ _ h1,
          diskGet_diskSet_ne _ _ _ _ h1, diskGet_diskSet_ne _ _ _ _ h1]
        rfl
      have hm := hmono (filesys_create fs p sz true).1 hother hcfinal
      have hlk : pureLookup (filesys_create fs p sz true).1 (find_file fs p).cwd
          (find_file fs p).filename = some ns := by
        rw [hcwd]
        simp only [pureLookup, hcfinal]
        rw [entryGet_append_none _ _ _ hmiss2]
        simp [entryGet]
      have hcw : (filesys_create fs p sz true).1.cwd_sector = fs.cwd_sector :=
        create_cwd fs p sz true
      have hopen := find_file_mono fs (filesys_create fs p sz true).1 hm hcw p ns hres hlk
      have hdirns : diskGet (filesys_create fs p sz true).1 ns
          = some ⟨true, [(['.'], ns), (['.', '.'], c)], sz⟩ := by
        rw [hshape]
        show diskGet _ ns = _
        rw [diskGet_diskSet_ne _ _ _ _ hnec]
        exact diskGet_diskSet_self _ _ _
      constructor
      · rw [hshape]
      · simp [filesys_open, hopen.1, hopen.2, inode_is_dir, hdirns, sectorOf]
  · intro hres
    have h0 : ¬ (find_file fs p).res = 0 := by rw [hres]; decide
    exact ⟨(create_fail_shape fs p sz b h0).2, (create_fail_shape fs p sz b h0).1⟩

theorem C6_witness :
    (filesys_create fsW ['x'] 0 false).2.1 = true
    ∧ (filesys_open (filesys_create fsW ['x'] 0 false).1 ['x']).1
        = (if false then OpenResult.dirH 3 else OpenResult.fileH 3) :=
  (C6_create_then_open fsW ['x'] 0 false 3 1 [] ⟨true, [], 0⟩ rfl rfl rfl (by decide)
    (by decide) (by decide)).1 (by decide)

theorem dropSlashes_eq_dropWhile (s : List Char) : dropSlashes s = s.dropWhile isSlash := by
  induction s with
  | nil => rfl
  | cons c t ih =>
    by_cases h : c = '/'
    · simp [dropSlashes, List.dropWhile_cons, isSlash, h, ih]
    · simp [dropSlashes, List.dropWhile_cons, isSlash, h]

theorem copyPart_spec (s : List Char) : ∀ n,
    ((s.takeWhile nonSlash).length ≤ n →
      copyPart s n = some (s.takeWhile nonSlash, s.dropWhile nonSlash))
    ∧ (n < (s.takeWhile nonSlash).length → copyPart s n = none) := by
  induction s with
  | nil =>
    intro n
    constructor
    · intro _
      simp [copyPart]
    · intro h
      simp at h
  | cons c t ih =>
    intro n
    by_cases hc : c = '/'
    · constructor
      · intro _
        simp [copyPart, hc, List.takeWhile_cons, nonSlash, List.dropWhile_cons]
      · intro h
        simp [List.takeWhile_cons, nonSlash, hc] at h
    · constructor
      · intro hle
        cases n with
        | zero => simp [List.takeWhile_cons, nonSlash, hc] at hle
        | succ m =>
          have hle2 : (t.takeWhile nonSlash).length ≤ m := by
            simp [List.takeWhile_cons, nonSlash, hc] at hle
            omega
          have hcp := (ih m).1 hle2
          simp [copyPart, hc, hcp, List.takeWhile_cons, List.dropWhile_cons, nonSlash]
      · intro hlt
        cases n with
        | zero => simp [copyPart, hc]
        | succ m =>
          have hlt2 : m < (t.takeWhile nonSlash).length := by
            simp [List.takeWhile_cons, nonSlash, hc] at hlt
            omega
          have hcp := (ih m).2 hlt2
          simp [copyPart, hc, hcp]

theorem dropWhile_length_le (p : Char → Bool) (l : List Char) :
    (l.dropWhile p).length ≤ l.length := by
  induction l with
  | nil => simp
  | cons c t ih =>
    by_cases h : p c
    · simp only [List.dropWhile_cons, h, if_true, List.length_cons]
      omega
    · simp [List.dropWhile_cons, h]

theorem componentsAux_fuel : ∀ m n (s : List Char), s.length < m → s.length < n →
    componentsAux m s = componentsAux n s := by
  intro m
  induction m with
  | zero => intro n s h _; omega
  | succ m' ih =>
    intro n s hm hn
    cases n with
    | zero => omega
    | succ n' =>
      cases h1 : s.dropWhile isSlash with
      | nil => simp [componentsAux, h1]
      | cons c t =>
        have hcn : ¬ c = '/' := by
          apply dropSlashes_head_ne s c t
          rw [dropSlashes_eq_dropWhile, h1]
        have hlen1 : (s.dropWhile isSlash).length ≤ s.length := dropWhile_length_le _ _
        rw [h1] at hlen1
        have hlen2 : ((c :: t).dropWhile nonSlash).length < (c :: t).length := by
          have hnc : nonSlash c = true := by simp [nonSlash, hcn]
          simp only [List.dropWhile_cons, hnc, if_true]
          have := dropWhile_length_le nonSlash t
          simp only [List.length_cons]
          omega
        have := ih n' ((c :: t).dropWhile nonSlash)
          (by simp only [List.length_cons] at hlen1 hlen2 ⊢; omega)
          (by simp only [List.length_cons] at hlen1 hlen2 ⊢; omega)
        simp [componentsAux, h1, this]

theorem componentsOf_cons (s : List Char) (c : Char) (t : List Char)
    (h1 : s.dropWhile isSlash = c :: t) :
    componentsOf s = (c :: t).takeWhile nonSlash :: componentsOf ((c :: t).dropWhile nonSlash) := by
  have hcn : ¬ c = '/' := by
    apply dropSlashes_head_ne s c t
    rw [dropSlashes_eq_dropWhile, h1]
  have hlen1 : (s.dropWhile isSlash).length ≤ s.length := dropWhile_length_le _ _
  rw [h1] at hlen1
  have hlen2 : ((c :: t).dropWhile nonSlash).length < (c :: t).length := by
    have hnc : nonSlash c = true := by simp [nonSlash, hcn]
    simp only [List.dropWhile_cons, hnc, if_true]
    have := dropWhile_length_le nonSlash t
    simp only [List.length_cons]
    omega
  have hfuel := componentsAux_fuel (s.length + 1 - 1) (((c :: t).dropWhile nonSlash).length + 1)
    ((c :: t).dropWhile nonSlash)
    (by simp only [List.length_cons] at hlen1 hlen2 ⊢; omega)
    (by omega)
  show componentsAux (s.length + 1) s = _
  simp only [componentsAux, h1]
  rw [show s.length + 1 - 1 = s.length from rfl] at hfuel
  rw [hfuel]
  rfl

theorem componentsOf_nil_of_slashes (s : List Char) (h1 : s.dropWhile isSlash = []) :
    componentsOf s = [] := by
  show componentsAux (s.length + 1) s = []
  simp [componentsAux, h1]

theorem gnp_endOfPath_components (s : List Char)
    (h : get_next_part s = PartResult.endOfPath) : componentsOf s = [] := by
  rw [gnp_endOfPath_iff, dropSlashes_eq_dropWhile] at h
  exact componentsOf_nil_of_slashes s h

theorem gnp_ok_components (s p rest : List Char)
    (h : get_next_part s = PartResult.ok p rest) :
    componentsOf s = p :: componentsOf rest := by
  simp only [get_next_part] at h
  cases h1 : dropSlashes s with
  | nil => simp [h1] at h
  | cons c t =>
    rw [h1] at h
    by_cases hlen : ((c :: t).takeWhile nonSlash).length ≤ NAME_MAX
    · have h2 := (copyPart_spec (c :: t) NAME_MAX).1 hlen
      simp only [h2, PartResult.ok.injEq] at h
      rw [dropSlashes_eq_dropWhile] at h1
      rw [componentsOf_cons s c t h1, h.1, h.2]
    · have h2 := (copyPart_spec (c :: t) NAME_MAX).2 (by omega)
      simp [h2] at h

theorem gnp_tooLong_components (s : List Char)
    (h : get_next_part s = PartResult.tooLong) :
    ∃ p t, componentsOf s = p :: t ∧ NAME_MAX < p.length := by
  simp only [get_next_part] at h
  cases h1 : dropSlashes s with
  | nil => simp [h1] at h
  | cons c t =>
    rw [h1] at h
    by_cases hlen : ((c :: t).takeWhile nonSlash).length ≤ NAME_MAX
    · have h2 := (copyPart_spec (c :: t) NAME_MAX).1 hlen
      simp [h2] at h
    · rw [dropSlashes_eq_dropWhile] at h1
      exact ⟨(c :: t).takeWhile nonSlash, componentsOf ((c :: t).dropWhile nonSlash),
        componentsOf_cons s c t h1, by omega⟩

theorem components_head_long_gnp (s p : List Char) (hh : (componentsOf s).head? = some p)
    (hl : NAME_MAX < p.length) : get_next_part s = PartResult.tooLong := by
  cases h1 : s.dropWhile isSlash with
  | nil =>
    rw [componentsOf_nil_of_slashes s h1] at hh
    simp at hh
  | cons c t =>
    rw [componentsOf_cons s c t h1] at hh
    simp only [List.head?_cons, Option.some.injEq] at hh
    simp only [get_next_part]
    rw [dropSlashes_eq_dropWhile, h1]
    have h2 := (copyPart_spec (c :: t) NAME_MAX).2 (by rw [hh]; omega)
    simp [h2]

theorem parseAll_components : ∀ n (s : List Char), s.length < n →
    (∀ p ∈ componentsOf s, p.length ≤ NAME_MAX) →
    parseAll n s = some (componentsOf s) := by
  intro n
  induction n with
  | zero => intro s h _; omega
  | succ m ih =>
    intro s hlen hshort
    cases hg : get_next_part s with
    | endOfPath => simp [parseAll, hg, gnp_endOfPath_components s hg]
    | tooLong =>
      obtain ⟨p, t, hc, hl⟩ := gnp_tooLong_components s hg
      exfalso
      have := hshort p (by rw [hc]; simp)
      omega
    | ok part rest =>
      have hc := gnp_ok_components s part rest hg
      have hrl := (gnp_ok_part s part rest hg).2.2
      have hrec := ih rest (by omega) (fun p hp => hshort p (by rw [hc]; simp [hp]))
      simp [parseAll, hg, hrec, hc]

/-- C7: for a path none of whose components exceeds the maximum length,
repeated parser calls yield exactly the ordered, non-empty,
separator-delimited components of the path (case-preserving, since the
characters are returned verbatim), ending with the end-of-string result; a
path consisting only of separators yields end with no components; and when
the component at the cursor exceeds the maximum length the parser returns
too-long (and, as the embedding of `get_next_part` records, the cursor is
not advanced past that component). -/
theorem C7_parser_components :
    (∀ s : List Char, (∀ p ∈ componentsOf s, p.length ≤ NAME_MAX) →
      parseAll (s.length + 1) s = some (componentsOf s))
    ∧ (∀ s : List Char, (∀ c ∈ s, c = '/') → get_next_part s = PartResult.endOfPath)
    ∧ (∀ s p : List Char, (componentsOf s).head? = some p → NAME_MAX < p.length →
      get_next_part s = PartResult.tooLong) :=
  ⟨fun s h => parseAll_components (s.length + 1) s (by omega) h,
   fun s h => (gnp_endOfPath_iff s).mpr (slashes_dropSlashes s h),
   components_head_long_gnp⟩

theorem C7_witness :
    parseAll ((['/', 'a', 'b', '/', '/', 'c'] : List Char).length + 1)
      ['/', 'a', 'b', '/', '/', 'c'] = some (componentsOf ['/', 'a', 'b', '/', '/', 'c']) :=
  C7_parser_components.1 ['/', 'a', 'b', '/', '/', 'c'] (by decide)
